import Mathlib

/-!
Verification development for the consistent-hash task router in
`hard/01_distributed_worker.go` (package `main`).

The Go source is shallowly embedded: Go `uint32` values are `Nat`s kept
below `2^32` by the operations themselves, Go maps become association
lists with lookup/insert/delete mirroring Go map semantics (a missing
string key yields the zero value `""`, a missing interface value yields
`none`, i.e. Go's `nil`), and Go slices become Lean lists.
-/

namespace DistWorker

/-! ### CRC32 (hash/crc32, `crc32.ChecksumIEEE`)

`crc32.ChecksumIEEE(data)` is the reflected CRC-32 with polynomial
`0xEDB88320`, initial value `0xFFFFFFFF` and final xor `0xFFFFFFFF`,
processed byte by byte over the UTF-8 bytes of the string. -/

def crc32Poly : Nat := 0xEDB88320

/-- One bit-step of the reflected CRC-32: shift right, conditionally xor
the polynomial when the dropped bit was set. -/
def crc32Round (c : Nat) : Nat :=
  if c % 2 = 1 then (c / 2) ^^^ crc32Poly else c / 2

/-- Fold one input byte into the running CRC (8 bit-steps). -/
def crc32Byte (c b : Nat) : Nat :=
  (List.range 8).foldl (fun acc _ => crc32Round acc) (c ^^^ b)

/-- CRC-32/IEEE of a byte sequence. -/
def crc32 (bs : List Nat) : Nat :=
  (bs.foldl crc32Byte 0xFFFFFFFF) ^^^ 0xFFFFFFFF

/-- UTF-8 encoding of one character, as Go's `[]byte(string)` produces. -/
def utf8Bytes (c : Char) : List Nat :=
  let n := c.toNat
  if n < 0x80 then [n]
  else if n < 0x800 then
    [0xC0 ||| (n >>> 6), 0x80 ||| (n &&& 0x3F)]
  else if n < 0x10000 then
    [0xE0 ||| (n >>> 12), 0x80 ||| ((n >>> 6) &&& 0x3F), 0x80 ||| (n &&& 0x3F)]
  else
    [0xF0 ||| (n >>> 18), 0x80 ||| ((n >>> 12) &&& 0x3F),
     0x80 ||| ((n >>> 6) &&& 0x3F), 0x80 ||| (n &&& 0x3F)]

/-- The UTF-8 bytes of a string (Go's `[]byte(data)`). -/
def strBytes (s : String) : List Nat :=
  (s.data.map utf8Bytes).flatten

/-- Embeds `ConsistentHash.hashFunction` (line 157): `crc32.ChecksumIEEE([]byte(data))`. -/
def hashFunction (data : String) : Nat :=
  crc32 (strBytes data)

/-! ### Go map semantics over association lists -/

variable {α : Type} {β : Type} [DecidableEq α]

/-- Go `m[k] = v`: replace the entry if the key is present, else append. -/
def mapInsert (m : List (α × β)) (k : α) (v : β) : List (α × β) :=
  match m with
  | [] => [(k, v)]
  | (k', v') :: rest =>
      if k' = k then (k, v) :: rest else (k', v') :: mapInsert rest k v

/-- Go `delete(m, k)`. -/
def mapDelete (m : List (α × β)) (k : α) : List (α × β) :=
  m.filter (fun p => p.1 ≠ k)

/-- Go `m[k]` as an optional value; a missing key yields `none`. -/
def mapLookup (m : List (α × β)) (k : α) : Option β :=
  match m with
  | [] => none
  | (k', v') :: rest => if k' = k then some v' else mapLookup rest k

/-! ### Data model (lines 44-58, 138-154) -/

/-- Embeds `Task` (line 45): `Payload interface\x7b\x7d` is embedded as a string and
`Created time.Time` as a numeric timestamp; neither influences routing. -/
structure Task where
  ID : String
  Payload : String
  Created : Nat
deriving DecidableEq, Repr

/-- The observable state of a `Worker` (interface, line 52) that routing and
dispatch consult: its identity (`GetID`) and its health at the moment of the
dispatch decision (`IsHealthy`). -/
structure Worker where
  id : String
  isHealthy : Bool
deriving DecidableEq, Repr

/-- Embeds `ConsistentHash` (line 139): `replicas`, the ring `map[uint32]string`,
the ascending `sortedKeys []uint32` and the `workers map[string]Worker`.
The mutex only serializes access and has no sequential content. -/
structure ConsistentHash where
  replicas : Nat
  ring : List (Nat × String)
  sortedKeys : List Nat
  workers : List (String × Worker)
deriving DecidableEq, Repr

/-- Embeds `NewConsistentHash` (line 148). -/
def NewConsistentHash (replicas : Nat) : ConsistentHash :=
  { replicas := replicas, ring := [], sortedKeys := [], workers := [] }

/-- The virtual-node label `fmt.Sprintf("%s#%d", workerID, i)` (line 172). -/
def virtualNode (workerID : String) (i : Nat) : String :=
  workerID ++ "#" ++ toString i

/-- The `replicas` virtual-node hashes of a worker (lines 170-174). -/
def vnodeHashes (workerID : String) (replicas : Nat) : List Nat :=
  (List.range replicas).map (fun i => hashFunction (virtualNode workerID i))

/-- Embeds `AddWorker` (lines 162-186): register the handle, insert every
virtual-node hash into the ring map, append it to `sortedKeys`, then sort
ascending (`sort.Slice`; on `Nat` keys any sorted permutation is the same
list, so insertion sort is the exact result). -/
def AddWorker (ch : ConsistentHash) (worker : Worker) : ConsistentHash :=
  let workerID := worker.id
  let hashes := vnodeHashes workerID ch.replicas
  { ch with
    workers := mapInsert ch.workers workerID worker
    ring := hashes.foldl (fun r h => mapInsert r h workerID) ch.ring
    sortedKeys := (ch.sortedKeys ++ hashes).insertionSort (· ≤ ·) }

/-- Embeds `RemoveWorker` (lines 189-211): for every virtual-node hash, delete the
ring entry and remove the first matching element of `sortedKeys` (the inner
loop with `break` is exactly first-occurrence erasure), then drop the
worker handle. -/
def RemoveWorker (ch : ConsistentHash) (workerID : String) : ConsistentHash :=
  let hashes := vnodeHashes workerID ch.replicas
  { ch with
    ring := hashes.foldl mapDelete ch.ring
    sortedKeys := hashes.foldl List.erase ch.sortedKeys
    workers := mapDelete ch.workers workerID }

/-- The loop body of Go's `sort.Search(n, f)` (used at line 227): binary
search on `[i, j)`, narrowing to the half determined by `f` at the
midpoint. The fuel argument only bounds the iteration count; every
iteration shrinks `j - i` by at least one, so fuel `j - i` is exact. -/
def goSearchAux (f : Nat → Bool) : Nat → Nat → Nat → Nat
  | 0, i, _j => i
  | fuel + 1, i, j =>
    if i < j then
      if f ((i + j) / 2) then goSearchAux f fuel i ((i + j) / 2)
      else goSearchAux f fuel ((i + j) / 2 + 1) j
    else i

/-- Go's `sort.Search(n, f)`: the smallest index in `[i, j)` at which the
monotone predicate `f` holds, or `j` when it holds nowhere. -/
def goSearch (f : Nat → Bool) (i j : Nat) : Nat :=
  goSearchAux f (j - i) i j

/-- The index `GetWorker` selects (lines 227-234): `sort.Search` over
`sortedKeys` for the first key `≥ hash`, wrapping to `0` past the end. -/
def selIdx (keys : List Nat) (hash : Nat) : Nat :=
  let n := keys.length
  let idx := goSearch (fun i => decide (hash ≤ keys.getD i 0)) 0 n
  if idx = n then 0 else idx

/-- The virtual-node key `GetWorker` selects. -/
def selKey (keys : List Nat) (hash : Nat) : Nat :=
  keys.getD (selIdx keys hash) 0

/-- Embeds `GetWorker` (lines 214-241). Error exactly when the ring map is empty;
otherwise look up the selected key in the ring map (a missing key yields
Go's zero value `""`) and return `workers[workerID]` (a missing worker
yields the `nil` interface value, here `none`). -/
def GetWorker (ch : ConsistentHash) (taskID : String) :
    Except String (Option Worker) :=
  if ch.ring.length = 0 then .error "no workers available"
  else
    let hash := hashFunction taskID
    let workerID := (mapLookup ch.ring (selKey ch.sortedKeys hash)).getD ""
    .ok (mapLookup ch.workers workerID)

/-! ### WorkerManager (lines 255-339) -/

/-- Embeds `WorkerManager` (line 256): the buffered channel `taskChan` becomes a
FIFO list bounded by `capacity` (the channel's buffer size, fixed at
creation). -/
structure WorkerManager where
  hash : ConsistentHash
  taskQueue : List Task
  capacity : Nat
deriving DecidableEq, Repr

/-- Embeds `NewWorkerManager` (lines 264-270): `make(chan Task, 100)`. -/
def NewWorkerManager (replicas : Nat) : WorkerManager :=
  { hash := NewConsistentHash replicas, taskQueue := [], capacity := 100 }

/-- Embeds `SubmitTask` (lines 283-291): `select` with `default` on a buffered
channel — the send succeeds iff the buffer has room (no consumer is
modelled as waiting), otherwise the `default` branch returns the
queue-full error synchronously and leaves the state untouched. -/
def SubmitTask (wm : WorkerManager) (task : Task) :
    Except String Unit × WorkerManager :=
  if wm.taskQueue.length < wm.capacity then
    (.ok (), { wm with taskQueue := wm.taskQueue ++ [task] })
  else
    (.error "task queue is full", wm)

/-- A channel receive (`<-wm.taskChan`, line 313). -/
def dequeueTask (wm : WorkerManager) : Option (Task × WorkerManager) :=
  match wm.taskQueue with
  | [] => none
  | t :: rest => some (t, { wm with taskQueue := rest })

/-- The fate of one dequeued task in the dispatch loop. -/
inductive DispatchAction where
  /-- Lookup failed: log and `continue` (lines 316-319). -/
  | dropNoWorker
  /-- Lookup returned the `nil` interface: `worker.IsHealthy()`
  dereferences `nil` and the goroutine panics. -/
  | nilWorkerPanic
  /-- The routed worker is unhealthy: log and `continue` (lines 322-325). -/
  | dropUnhealthy (w : Worker)
  /-- Healthy worker: `go w.ProcessTask(t)` (lines 328-333). -/
  | process (w : Worker)
deriving DecidableEq, Repr

/-- The routing decision of `taskProcessor` (lines 308-339) for one task. -/
def dispatchDecision (ch : ConsistentHash) (task : Task) : DispatchAction :=
  match GetWorker ch task.ID with
  | .error _ => .dropNoWorker
  | .ok none => .nilWorkerPanic
  | .ok (some w) => if w.isHealthy then .process w else .dropUnhealthy w

/-- One iteration of the `taskProcessor` loop: receive the head task (if
any), decide its fate; the task leaves the queue either way and the loop
proceeds with the remainder. -/
def taskProcessorStep (wm : WorkerManager) :
    Option (DispatchAction × WorkerManager) :=
  match wm.taskQueue with
  | [] => none
  | t :: rest =>
      some (dispatchDecision wm.hash t, { wm with taskQueue := rest })

/-- Specification-level successor on the ring: the first key `≥ hash` of
an ascending key list, wrapping around to the overall first key when no
key is `≥ hash` — "the next virtual node clockwise". -/
def clockwiseKey (keys : List Nat) (hash : Nat) : Nat :=
  match keys.filter (fun k => decide (hash ≤ k)) with
  | [] => keys.headD 0
  | k :: _ => k

/-- The worker that a selected virtual-node key resolves to: the ring map
gives the worker ID (`""` when absent) and the registry gives the handle
(`none`, i.e. `nil`, when absent). -/
def ownerOf (ch : ConsistentHash) (key : Nat) : Option Worker :=
  mapLookup ch.workers ((mapLookup ch.ring key).getD "")

/-! ### Ring state invariant

`ringInv` is the well-formedness the spec attributes to rings built by
adding each worker once with collision-free virtual-node hashes: the key
list is ascending and duplicate-free, ring keys and worker IDs are
unique, every listed key is a live ring entry, every ring entry points at
a registered worker and is one of its virtual-node hashes, and every
registered worker owns ring entries for all its virtual-node hashes. -/
def ringInv (ch : ConsistentHash) : Prop :=
  ch.sortedKeys.Sorted (· ≤ ·) ∧
  ch.sortedKeys.Nodup ∧
  (ch.ring.map Prod.fst).Nodup ∧
  (ch.workers.map Prod.fst).Nodup ∧
  (∀ k ∈ ch.sortedKeys, (mapLookup ch.ring k).isSome = true) ∧
  (∀ p ∈ ch.ring, p.1 ∈ ch.sortedKeys ∧ p.1 ∈ vnodeHashes p.2 ch.replicas ∧
    (mapLookup ch.workers p.2).isSome = true) ∧
  (∀ q ∈ ch.workers, q.2.id = q.1 ∧
    ∀ k ∈ vnodeHashes q.1 ch.replicas, mapLookup ch.ring k = some q.1)

instance (ch : ConsistentHash) : Decidable (ringInv ch) := by
  unfold ringInv
  infer_instance

/-- Every state reachable from `NewConsistentHash` by any sequence of
`AddWorker` / `RemoveWorker` calls. -/
inductive Reachable : ConsistentHash → Prop where
  | init (replicas : Nat) : Reachable (NewConsistentHash replicas)
  | add {ch : ConsistentHash} (w : Worker) :
      Reachable ch → Reachable (AddWorker ch w)
  | remove {ch : ConsistentHash} (workerID : String) :
      Reachable ch → Reachable (RemoveWorker ch workerID)

/-- States built by sequences in which every `AddWorker` adds a worker ID
that is not currently registered, with fresh, pairwise-distinct
virtual-node hashes (no collisions), and every `RemoveWorker` removes a
registered worker. -/
inductive CleanReachable : ConsistentHash → Prop where
  | init (replicas : Nat) : CleanReachable (NewConsistentHash replicas)
  | add {ch : ConsistentHash} (w : Worker) :
      CleanReachable ch →
      mapLookup ch.workers w.id = none →
      (∀ k ∈ vnodeHashes w.id ch.replicas, k ∉ ch.sortedKeys) →
      (vnodeHashes w.id ch.replicas).Nodup →
      CleanReachable (AddWorker ch w)
  | remove {ch : ConsistentHash} (workerID : String) :
      CleanReachable ch →
      (mapLookup ch.workers workerID).isSome = true →
      CleanReachable (RemoveWorker ch workerID)

/-- Sequential submission (`SubmitTask` in a loop): stops at the first
rejection. -/
def submitAll (wm : WorkerManager) : List Task → Option WorkerManager
  | [] => some wm
  | t :: ts =>
    match SubmitTask wm t with
    | (Except.ok _, wm2) => submitAll wm2 ts
    | (Except.error _, _) => none

/-! ### Binary-search lemmas -/

theorem goSearchAux_bounds (f : Nat → Bool) :
    ∀ n i j, j - i ≤ n → i ≤ j →
      i ≤ goSearchAux f n i j ∧ goSearchAux f n i j ≤ j := by
  intro n
  induction n with
  | zero =>
    intro i j h1 h2
    rw [goSearchAux]
    omega
  | succ n ih =>
    intro i j h1 h2
    rw [goSearchAux]
    by_cases hij : i < j
    · rw [if_pos hij]
      cases hf : f ((i + j) / 2) with
      | true =>
        rw [if_pos rfl]
        have := ih i ((i + j) / 2) (by omega) (by omega)
        omega
      | false =>
        rw [if_neg (by simp [hf])]
        have := ih ((i + j) / 2 + 1) j (by omega) (by omega)
        omega
    · rw [if_neg hij]; omega

/-- Correctness of the search on a predicate monotone on `[i, j)`: the
result `r` lies in `[i, j]`, the predicate fails strictly below `r`, and
holds at `r` whenever `r < j`. -/
theorem goSearchAux_spec (f : Nat → Bool) :
    ∀ n i j, j - i ≤ n → i ≤ j →
      (∀ a b, i ≤ a → a ≤ b → b < j → f a = true → f b = true) →
      (∀ k, i ≤ k → k < goSearchAux f n i j → f k = false) ∧
      (goSearchAux f n i j < j → f (goSearchAux f n i j) = true) := by
  intro n
  induction n with
  | zero =>
    intro i j h1 h2 _
    rw [goSearchAux]
    exact ⟨fun k hk hk' => by omega, fun h => by omega⟩
  | succ n ih =>
    intro i j h1 h2 mono
    rw [goSearchAux]
    by_cases hij : i < j
    · rw [if_pos hij]
      cases hf : f ((i + j) / 2) with
      | true =>
        rw [if_pos rfl]
        have hb := goSearchAux_bounds f n i ((i + j) / 2) (by omega) (by omega)
        have hrec := ih i ((i + j) / 2) (by omega) (by omega)
          (fun a b ha hab hb' => mono a b ha hab (by omega))
        refine ⟨hrec.1, fun hlt => ?_⟩
        rcases Nat.lt_or_ge (goSearchAux f n i ((i + j) / 2)) ((i + j) / 2) with h | h
        · exact hrec.2 h
        · have heq : goSearchAux f n i ((i + j) / 2) = (i + j) / 2 := by omega
          rw [heq]; exact hf
      | false =>
        rw [if_neg (by simp [hf])]
        have hrec := ih ((i + j) / 2 + 1) j (by omega) (by omega)
          (fun a b ha hab hb' => mono a b (by omega) hab hb')
        have hb := goSearchAux_bounds f n ((i + j) / 2 + 1) j (by omega) (by omega)
        refine ⟨fun k hk hk' => ?_, hrec.2⟩
        by_cases hkm : k ≤ (i + j) / 2
        · cases hfk : f k with
          | true => exact absurd (mono k ((i + j) / 2) hk hkm (by omega) hfk) (by simp [hf])
          | false => rfl
        · exact hrec.1 k (by omega) hk'
    · rw [if_neg hij]
      exact ⟨fun k hk hk' => by omega, fun h => by omega⟩

theorem goSearch_bounds (f : Nat → Bool) (i j : Nat) (hij : i ≤ j) :
    i ≤ goSearch f i j ∧ goSearch f i j ≤ j :=
  goSearchAux_bounds f (j - i) i j le_rfl hij

theorem goSearch_spec (f : Nat → Bool) (i j : Nat) (hij : i ≤ j)
    (mono : ∀ a b, i ≤ a → a ≤ b → b < j → f a = true → f b = true) :
    (∀ k, i ≤ k → k < goSearch f i j → f k = false) ∧
    (goSearch f i j < j → f (goSearch f i j) = true) :=
  goSearchAux_spec f (j - i) i j le_rfl hij mono

/-! ### Sorted-list helpers -/

theorem sorted_headD_le {l : List Nat} (hs : l.Sorted (· ≤ ·)) {x : Nat}
    (hx : x ∈ l) : l.headD 0 ≤ x := by
  cases l with
  | nil => cases hx
  | cons y ys =>
    rcases List.mem_cons.1 hx with rfl | hx'
    · exact le_refl _
    · exact List.rel_of_sorted_cons hs x hx'

theorem headD_mem {l : List Nat} (hl : l ≠ []) : l.headD 0 ∈ l := by
  cases l with
  | nil => exact absurd rfl hl
  | cons y ys => exact List.mem_cons_self y ys

/-- If a predicate fails on every element before index `r` and holds at
index `r`, the first element of the filtered list is the element at `r`. -/
theorem head?_filter_of_first {l : List Nat} {p : Nat → Bool} :
    ∀ {r : Nat} (hr : r < l.length),
      (∀ k, k < r → p (l.getD k 0) = false) → p (l.getD r 0) = true →
      (l.filter p).head? = some (l.getD r 0) := by
  induction l with
  | nil => intro r hr _ _; simp at hr
  | cons x xs ih =>
    intro r hr hbefore hat
    cases r with
    | zero =>
      simp only [List.getD_cons_zero] at hat
      simp [List.filter_cons, hat]
    | succ r' =>
      have hx : p x = false := by
        have := hbefore 0 (Nat.succ_pos r')
        simpa using this
      simp only [List.getD_cons_succ] at hat ⊢
      rw [List.filter_cons, if_neg (by simp [hx])]
      exact ih (by simpa using hr) (fun k hk => by
        have := hbefore (k + 1) (by omega)
        simpa using this) hat

/-- On an ascending key list, the index selection of `GetWorker`
(`sort.Search` then wrap) computes exactly the clockwise successor. -/
theorem selKey_eq_clockwiseKey {keys : List Nat} (hash : Nat)
    (hs : keys.Sorted (· ≤ ·)) (hne : keys ≠ []) :
    selKey keys hash = clockwiseKey keys hash := by
  have hlen : 0 < keys.length := List.length_pos.2 hne
  set f : Nat → Bool := fun i => decide (hash ≤ keys.getD i 0) with hf
  have mono : ∀ a b, 0 ≤ a → a ≤ b → b < keys.length → f a = true → f b = true := by
    intro a b _ hab hb hfa
    have hga : hash ≤ keys.getD a 0 := by
      rw [hf] at hfa
      exact of_decide_eq_true hfa
    have hgab : keys.getD a 0 ≤ keys.getD b 0 := by
      rcases Nat.lt_or_ge a b with h | h
      · have h2 := List.pairwise_iff_get.1 hs ⟨a, by omega⟩ ⟨b, hb⟩ h
        rw [List.getD_eq_getElem keys 0 (by omega : a < keys.length),
            List.getD_eq_getElem keys 0 hb]
        simpa using h2
      · have : a = b := by omega
        rw [this]
    simp only [hf, decide_eq_true_eq]
    omega
  have hspec := goSearch_spec f 0 keys.length (Nat.zero_le _) mono
  have hbounds := goSearch_bounds f 0 keys.length (Nat.zero_le _)
  set r := goSearch f 0 keys.length with hr
  by_cases hrn : r = keys.length
  · -- no key is ≥ hash: every index fails, filter is empty, wrap to index 0
    have halllt : ∀ x ∈ keys, ¬ (hash ≤ x) := by
      intro x hx hcon
      rcases List.mem_iff_get.1 hx with ⟨⟨k, hk⟩, rfl⟩
      have hfalse := hspec.1 k (Nat.zero_le _) (by omega)
      have htrue : f k = true := by
        simp only [hf, decide_eq_true_eq]
        rw [List.getD_eq_getElem keys 0 hk]
        simpa using hcon
      rw [htrue] at hfalse
      cases hfalse
    have hfil : keys.filter (fun k => decide (hash ≤ k)) = [] := by
      rw [List.filter_eq_nil_iff]
      intro a ha
      simpa using halllt a ha
    have hsel : selIdx keys hash = 0 := by
      simp only [selIdx, ← hf, ← hr, if_pos hrn]
    rw [selKey, hsel, clockwiseKey, hfil]
    cases keys with
    | nil => exact absurd rfl hne
    | cons y ys => rfl
  · -- r is the first index with key ≥ hash
    have hrlt : r < keys.length := by omega
    have hat : f r = true := hspec.2 hrlt
    have hbefore : ∀ k, k < r → f k = false := fun k hk =>
      hspec.1 k (Nat.zero_le _) hk
    have hhead : (keys.filter (fun k => decide (hash ≤ k))).head? =
        some (keys.getD r 0) :=
      head?_filter_of_first hrlt hbefore hat
    have hsel : selIdx keys hash = r := by
      simp only [selIdx, ← hf, ← hr, if_neg hrn]
    rw [selKey, hsel, clockwiseKey]
    cases hfil : keys.filter (fun k => decide (hash ≤ k)) with
    | nil => rw [hfil] at hhead; cases hhead
    | cons k0 t =>
      rw [hfil] at hhead
      simpa using hhead.symm

theorem clockwiseKey_mem {keys : List Nat} (hash : Nat) (hne : keys ≠ []) :
    clockwiseKey keys hash ∈ keys := by
  rw [clockwiseKey]
  cases hfil : keys.filter (fun k => decide (hash ≤ k)) with
  | nil => exact headD_mem hne
  | cons k0 t =>
    have : k0 ∈ keys.filter (fun k => decide (hash ≤ k)) := by
      rw [hfil]; exact List.mem_cons_self k0 t
    exact List.mem_of_mem_filter this

/-- Stability of the clockwise successor: removing keys other than the
selected one does not change the selection. -/
theorem clockwiseKey_stable {keys keys' : List Nat} {hash : Nat}
    (hs : keys.Sorted (· ≤ ·)) (hsub : List.Sublist keys' keys)
    (hmem : clockwiseKey keys hash ∈ keys') :
    clockwiseKey keys' hash = clockwiseKey keys hash := by
  have hs' : keys'.Sorted (· ≤ ·) := List.Pairwise.sublist hsub hs
  cases hfil : keys.filter (fun k => decide (hash ≤ k)) with
  | nil =>
    -- every key is < hash; both sides wrap to the respective head
    have hall : ∀ x ∈ keys, ¬ (hash ≤ x) := by
      intro x hx
      have := List.filter_eq_nil_iff.1 hfil x hx
      simpa using this
    have hfil' : keys'.filter (fun k => decide (hash ≤ k)) = [] := by
      rw [List.filter_eq_nil_iff]
      intro a ha
      simpa using hall a (hsub.subset ha)
    have lhs : clockwiseKey keys' hash = keys'.headD 0 := by
      rw [clockwiseKey, hfil']
    have rhs : clockwiseKey keys hash = keys.headD 0 := by
      rw [clockwiseKey, hfil]
    rw [rhs] at hmem
    rw [lhs, rhs]
    -- keys.headD 0 is the minimum of keys; it lies in keys', whose head is
    -- its own minimum, so the two heads agree
    have h1 : keys'.headD 0 ≤ keys.headD 0 := sorted_headD_le hs' hmem
    have hne' : keys' ≠ [] := by
      intro h; rw [h] at hmem; cases hmem
    have h2 : keys.headD 0 ≤ keys'.headD 0 :=
      sorted_headD_le hs (hsub.subset (headD_mem hne'))
    omega
  | cons k0 t =>
    have hk0 : clockwiseKey keys hash = k0 := by rw [clockwiseKey, hfil]
    rw [hk0] at hmem
    have hk0F : k0 ∈ keys.filter (fun k => decide (hash ≤ k)) := by
      rw [hfil]; exact List.mem_cons_self k0 t
    have hk0ge : hash ≤ k0 := by
      have := (List.mem_filter.1 hk0F).2
      simpa using this
    have hk0F' : k0 ∈ keys'.filter (fun k => decide (hash ≤ k)) :=
      List.mem_filter.2 ⟨hmem, by simpa using hk0ge⟩
    cases hfil' : keys'.filter (fun k => decide (hash ≤ k)) with
    | nil => rw [hfil'] at hk0F'; cases hk0F'
    | cons k0' t' =>
      -- k0' is the least key of keys' that is ≥ hash, k0 the least such
      -- key of keys; each list contains the other head, hence equality
      have hk0' : clockwiseKey keys' hash = k0' := by rw [clockwiseKey, hfil']
      rw [hk0', hk0]
      have hsF : (keys.filter (fun k => decide (hash ≤ k))).Sorted (· ≤ ·) :=
        hs.filter _
      have hsF' : (keys'.filter (fun k => decide (hash ≤ k))).Sorted (· ≤ ·) :=
        hs'.filter _
      rw [hfil'] at hk0F' hsF'
      have h1 : k0' ≤ k0 := by
        rcases List.mem_cons.1 hk0F' with rfl | hmemt
        · exact le_refl _
        · exact List.rel_of_sorted_cons hsF' k0 hmemt
      have hk0'F : k0' ∈ keys.filter (fun k => decide (hash ≤ k)) := by
        have h01 : k0' ∈ keys'.filter (fun k => decide (hash ≤ k)) := by
          rw [hfil']; exact List.mem_cons_self k0' t'
        have := List.mem_filter.1 h01
        exact List.mem_filter.2 ⟨hsub.subset this.1, this.2⟩
      have h2 : k0 ≤ k0' := by
        rw [hfil] at hk0'F hsF
        rcases List.mem_cons.1 hk0'F with rfl | hmemt
        · exact le_refl _
        · exact List.rel_of_sorted_cons hsF k0' hmemt
      omega

/-! ### Go-map lemmas -/

theorem mapLookup_insert (m : List (α × β)) (k : α) (v : β) (k' : α) :
    mapLookup (mapInsert m k v) k' = if k' = k then some v else mapLookup m k' := by
  induction m with
  | nil =>
    by_cases h : k' = k
    · subst h; simp [mapInsert, mapLookup]
    · have h' : ¬k = k' := fun hc => h hc.symm
      simp [mapInsert, mapLookup, h, h']
  | cons p rest ih =>
    obtain ⟨a, b⟩ := p
    by_cases h : k' = k
    · subst h
      by_cases hak : a = k'
      · subst hak
        simp [mapInsert, mapLookup]
      · simp [mapInsert, mapLookup, hak, ih]
    · have h' : ¬k = k' := fun hc => h hc.symm
      by_cases hak : a = k
      · subst hak
        simp [mapInsert, mapLookup, h, h']
      · by_cases hak' : a = k'
        · simp [mapInsert, mapLookup, hak, hak', h, h', ih]
        · simp [mapInsert, mapLookup, hak, hak', h, h', ih]

theorem mapLookup_delete (m : List (α × β)) (k k' : α) :
    mapLookup (mapDelete m k) k' = if k' = k then none else mapLookup m k' := by
  induction m with
  | nil => simp [mapDelete, mapLookup]
  | cons p rest ih =>
    obtain ⟨a, b⟩ := p
    have hfc : mapDelete ((a, b) :: rest) k =
        if a = k then mapDelete rest k else (a, b) :: mapDelete rest k := by
      rw [mapDelete, mapDelete, List.filter_cons]
      by_cases hak : a = k <;> simp [hak]
    rw [hfc]
    by_cases hak : a = k
    · rw [if_pos hak, ih, mapLookup]
      by_cases h : k' = k
      · rw [if_pos h, if_pos h]
      · rw [if_neg h, if_neg h, if_neg (fun hc : a = k' => h (hc.symm.trans hak))]
    · rw [if_neg hak, mapLookup, ih, mapLookup]
      by_cases hak' : a = k'
      · rw [if_pos hak', if_neg (fun hc : k' = k => hak (hak'.trans hc)), if_pos hak']
      · rw [if_neg hak', if_neg hak']

theorem mem_of_mapLookup_eq_some {m : List (α × β)} {k : α} {v : β}
    (h : mapLookup m k = some v) : (k, v) ∈ m := by
  induction m with
  | nil => cases h
  | cons p rest ih =>
    obtain ⟨a, b⟩ := p
    rw [mapLookup] at h
    by_cases hak : a = k
    · rw [if_pos hak] at h
      cases h
      exact List.mem_cons.2 (Or.inl (by rw [hak]))
    · rw [if_neg hak] at h
      exact List.mem_cons.2 (Or.inr (ih h))

theorem mapLookup_isSome_of_mem {m : List (α × β)} {k : α} {v : β}
    (h : (k, v) ∈ m) : (mapLookup m k).isSome := by
  induction m with
  | nil => cases h
  | cons p rest ih =>
    obtain ⟨a, b⟩ := p
    rw [mapLookup]
    by_cases hak : a = k
    · rw [if_pos hak]; rfl
    · rw [if_neg hak]
      rcases List.mem_cons.1 h with heq | hmem
      · cases heq; exact absurd rfl hak
      · exact ih hmem

theorem mapLookup_eq_some_of_mem_nodup {m : List (α × β)}
    (hnd : (m.map Prod.fst).Nodup) {k : α} {v : β} (h : (k, v) ∈ m) :
    mapLookup m k = some v := by
  induction m with
  | nil => cases h
  | cons p rest ih =>
    obtain ⟨a, b⟩ := p
    rw [List.map_cons, List.nodup_cons] at hnd
    rw [mapLookup]
    rcases List.mem_cons.1 h with heq | hmem
    · cases heq
      rw [if_pos rfl]
    · by_cases hak : a = k
      · exfalso
        apply hnd.1
        rw [hak]
        exact List.mem_map.2 ⟨(k, v), hmem, rfl⟩
      · rw [if_neg hak]
        exact ih hnd.2 hmem

theorem mapLookup_eq_none_iff {m : List (α × β)} {k : α} :
    mapLookup m k = none ↔ k ∉ m.map Prod.fst := by
  induction m with
  | nil => simp [mapLookup]
  | cons p rest ih =>
    obtain ⟨a, b⟩ := p
    rw [mapLookup]
    by_cases hak : a = k
    · subst hak
      simp
    · rw [if_neg hak, List.map_cons]
      simp only [List.mem_cons, ih]
      constructor
      · intro h hc
        rcases hc with hc | hc
        · exact hak hc.symm
        · exact h hc
      · intro h hc
        exact h (Or.inr hc)

theorem mem_mapDelete {m : List (α × β)} {k : α} {p : α × β} :
    p ∈ mapDelete m k ↔ p ∈ m ∧ p.1 ≠ k := by
  rw [mapDelete]
  rw [List.mem_filter]
  simp

theorem mapDelete_sublist (m : List (α × β)) (k : α) :
    List.Sublist (mapDelete m k) m :=
  List.filter_sublist m

theorem mapInsert_map_fst (m : List (α × β)) (k : α) (v : β) :
    (mapInsert m k v).map Prod.fst =
      if k ∈ m.map Prod.fst then m.map Prod.fst else m.map Prod.fst ++ [k] := by
  induction m with
  | nil => simp [mapInsert]
  | cons p rest ih =>
    obtain ⟨a, b⟩ := p
    rw [mapInsert]
    by_cases hak : a = k
    · subst hak
      simp
    · rw [if_neg hak, List.map_cons, List.map_cons, ih]
      by_cases h : k ∈ rest.map Prod.fst
      · rw [if_pos h, if_pos (by simp [h])]
      · rw [if_neg h, if_neg (by simp [h]; exact fun hc => hak hc.symm)]
        simp

theorem mapInsert_of_not_mem {m : List (α × β)} {k : α}
    (h : k ∉ m.map Prod.fst) (v : β) : mapInsert m k v = m ++ [(k, v)] := by
  induction m with
  | nil => simp [mapInsert]
  | cons p rest ih =>
    obtain ⟨a, b⟩ := p
    rw [List.map_cons] at h
    rw [mapInsert, if_neg (fun hc => h (List.mem_cons.2 (Or.inl hc.symm)))]
    rw [ih (fun hc => h (List.mem_cons.2 (Or.inr hc)))]
    simp

theorem mapLookup_foldl_delete (ks : List α) (m : List (α × β)) (k : α) :
    mapLookup (ks.foldl mapDelete m) k =
      if k ∈ ks then none else mapLookup m k := by
  induction ks generalizing m with
  | nil => simp
  | cons a rest ih =>
    rw [List.foldl_cons, ih]
    by_cases h : k ∈ rest
    · rw [if_pos h, if_pos (List.mem_cons.2 (Or.inr h))]
    · rw [if_neg h, mapLookup_delete]
      by_cases hka : k = a
      · rw [if_pos hka, if_pos (List.mem_cons.2 (Or.inl hka))]
      · rw [if_neg hka, if_neg (by simp [hka, h])]

theorem mem_foldl_delete {ks : List α} {m : List (α × β)} {p : α × β} :
    p ∈ ks.foldl mapDelete m ↔ p ∈ m ∧ p.1 ∉ ks := by
  induction ks generalizing m with
  | nil => simp
  | cons a rest ih =>
    rw [List.foldl_cons, ih, mem_mapDelete]
    simp only [List.mem_cons]
    constructor
    · rintro ⟨⟨h1, h2⟩, h3⟩
      exact ⟨h1, by intro hc; rcases hc with hc | hc; exact h2 hc; exact h3 hc⟩
    · rintro ⟨h1, h2⟩
      exact ⟨⟨h1, fun hc => h2 (Or.inl hc)⟩, fun hc => h2 (Or.inr hc)⟩

theorem foldl_delete_sublist (ks : List α) (m : List (α × β)) :
    List.Sublist (ks.foldl mapDelete m) m := by
  induction ks generalizing m with
  | nil => exact List.Sublist.refl m
  | cons a rest ih =>
    rw [List.foldl_cons]
    exact (ih (mapDelete m a)).trans (mapDelete_sublist m a)

theorem foldl_insert_of_fresh {ks : List α} {m : List (α × β)} (v : β)
    (hnd : ks.Nodup) (hfresh : ∀ x ∈ ks, x ∉ m.map Prod.fst) :
    ks.foldl (fun r h => mapInsert r h v) m = m ++ ks.map (fun h => (h, v)) := by
  induction ks generalizing m with
  | nil => simp
  | cons a rest ih =>
    rw [List.foldl_cons, mapInsert_of_not_mem (hfresh a (List.mem_cons_self a rest)) v]
    rw [List.nodup_cons] at hnd
    rw [ih hnd.2]
    · simp
    · intro x hx
      rw [List.map_append]
      simp only [List.mem_append]
      intro hc
      rcases hc with hc | hc
      · exact hfresh x (List.mem_cons.2 (Or.inr hx)) hc
      · simp at hc
        subst hc
        exact hnd.1 hx

theorem mapLookup_foldl_insert (ks : List α) (m : List (α × β)) (v : β) (k : α) :
    mapLookup (ks.foldl (fun r h => mapInsert r h v) m) k =
      if k ∈ ks then some v else mapLookup m k := by
  induction ks generalizing m with
  | nil => simp
  | cons a rest ih =>
    rw [List.foldl_cons, ih]
    by_cases h : k ∈ rest
    · rw [if_pos h, if_pos (List.mem_cons.2 (Or.inr h))]
    · rw [if_neg h, mapLookup_insert]
      by_cases hka : k = a
      · rw [if_pos hka, if_pos (List.mem_cons.2 (Or.inl hka))]
      · rw [if_neg hka, if_neg (by simp [hka, h])]

theorem foldl_erase_eq_filter {l : List Nat} (ks : List Nat) (hnd : l.Nodup) :
    ks.foldl List.erase l = l.filter (fun x => decide (x ∉ ks)) := by
  induction ks generalizing l with
  | nil => simp
  | cons a rest ih =>
    rw [List.foldl_cons, ih (hnd.erase a), List.Nodup.erase_eq_filter hnd a,
        List.filter_filter]
    apply List.filter_congr
    intro x _
    by_cases hxa : x = a <;> by_cases hxr : x ∈ rest <;> simp [hxa, hxr]

theorem foldl_erase_sublist (ks : List Nat) (l : List Nat) :
    List.Sublist (ks.foldl List.erase l) l := by
  induction ks generalizing l with
  | nil => exact List.Sublist.refl l
  | cons a rest ih =>
    rw [List.foldl_cons]
    exact (ih (l.erase a)).trans (List.erase_sublist a l)

theorem reachable_sorted {ch : ConsistentHash} (h : Reachable ch) :
    ch.sortedKeys.Sorted (· ≤ ·) := by
  induction h with
  | init replicas => exact List.sorted_nil
  | add w _ _ => exact List.sorted_insertionSort _ _
  | remove workerID _ ih =>
    exact List.Pairwise.sublist (foldl_erase_sublist _ _) ih

theorem ringInv_add {ch : ConsistentHash} {w : Worker} (hInv : ringInv ch)
    (hfreshW : mapLookup ch.workers w.id = none)
    (hfreshK : ∀ k ∈ vnodeHashes w.id ch.replicas, k ∉ ch.sortedKeys)
    (hndS : (vnodeHashes w.id ch.replicas).Nodup) :
    ringInv (AddWorker ch w) := by
  obtain ⟨hsort, hknd, hrnd, hwnd, hlive, hringp, hworkq⟩ := hInv
  set S := vnodeHashes w.id ch.replicas with hS
  -- the new state, componentwise
  have hrepl : (AddWorker ch w).replicas = ch.replicas := rfl
  have hkeys : (AddWorker ch w).sortedKeys =
      (ch.sortedKeys ++ S).insertionSort (· ≤ ·) := rfl
  have hringE : (AddWorker ch w).ring =
      S.foldl (fun r h => mapInsert r h w.id) ch.ring := rfl
  have hworkE : (AddWorker ch w).workers = mapInsert ch.workers w.id w := rfl
  have hperm : List.Perm ((ch.sortedKeys ++ S).insertionSort (· ≤ ·))
      (ch.sortedKeys ++ S) := List.perm_insertionSort _ _
  have hmemkeys : ∀ x, x ∈ (AddWorker ch w).sortedKeys ↔
      x ∈ ch.sortedKeys ∨ x ∈ S := by
    intro x
    rw [hkeys, hperm.mem_iff, List.mem_append]
  -- every hash of S is absent from the old ring's keys
  have hfreshR : ∀ x ∈ S, x ∉ ch.ring.map Prod.fst := by
    intro x hxS hxr
    rcases List.mem_map.1 hxr with ⟨p, hp, hfst⟩
    exact hfreshK x hxS (hfst ▸ (hringp p hp).1)
  have hringE' : (AddWorker ch w).ring =
      ch.ring ++ S.map (fun h => (h, w.id)) := by
    rw [hringE]
    exact foldl_insert_of_fresh w.id hndS hfreshR
  have hWfresh : w.id ∉ ch.workers.map Prod.fst :=
    mapLookup_eq_none_iff.1 hfreshW
  have hworkE' : (AddWorker ch w).workers = ch.workers ++ [(w.id, w)] := by
    rw [hworkE]
    exact mapInsert_of_not_mem hWfresh w
  have hringL : ∀ k, mapLookup (AddWorker ch w).ring k =
      if k ∈ S then some w.id else mapLookup ch.ring k := by
    intro k
    rw [hringE]
    exact mapLookup_foldl_insert S ch.ring w.id k
  have hworkL : ∀ x, mapLookup (AddWorker ch w).workers x =
      if x = w.id then some w else mapLookup ch.workers x := by
    intro x
    rw [hworkE]
    exact mapLookup_insert ch.workers w.id w x
  refine ⟨List.sorted_insertionSort _ _, ?_, ?_, ?_, ?_, ?_, ?_⟩
  · -- sortedKeys nodup
    rw [hkeys]
    refine hperm.symm.nodup ?_
    rw [List.nodup_append]
    exact ⟨hknd, hndS, fun a ha haS => hfreshK a haS ha⟩
  · -- ring keys nodup
    rw [hringE', List.map_append, List.nodup_append]
    refine ⟨hrnd, ?_, ?_⟩
    · have hmf : (S.map (fun h => (h, w.id))).map Prod.fst = S := by
        rw [List.map_map]
        exact List.map_id S
      rw [hmf]; exact hndS
    · intro a ha haS
      have hmf : (S.map (fun h => (h, w.id))).map Prod.fst = S := by
        rw [List.map_map]
        exact List.map_id S
      rw [hmf] at haS
      exact hfreshR a haS ha
  · -- workers keys nodup
    rw [hworkE', List.map_append, List.nodup_append]
    refine ⟨hwnd, List.nodup_singleton _, ?_⟩
    intro a ha haS
    simp at haS
    subst haS
    exact hWfresh ha
  · -- every listed key is live in the ring
    intro k hkmem
    rw [hringL k]
    by_cases hkS : k ∈ S
    · rw [if_pos hkS]; rfl
    · rw [if_neg hkS]
      rcases (hmemkeys k).1 hkmem with hold | hnew
      · exact hlive k hold
      · exact absurd hnew hkS
  · -- every ring entry is listed, hash-consistent, registered
    intro p hp
    rw [hringE'] at hp
    rcases List.mem_append.1 hp with hold | hnew
    · obtain ⟨h1, h2, h3⟩ := hringp p hold
      refine ⟨(hmemkeys p.1).2 (Or.inl h1), h2, ?_⟩
      rw [hworkL p.2]
      by_cases hpw : p.2 = w.id
      · rw [if_pos hpw]; rfl
      · rw [if_neg hpw]; exact h3
    · rcases List.mem_map.1 hnew with ⟨h, hhS, rfl⟩
      refine ⟨(hmemkeys h).2 (Or.inr hhS), hhS, ?_⟩
      rw [hworkL w.id, if_pos rfl]
      rfl
  · -- every registered worker owns all its ring entries
    intro q hq
    rw [hworkE'] at hq
    rcases List.mem_append.1 hq with hold | hnew
    · obtain ⟨h1, h2⟩ := hworkq q hold
      refine ⟨h1, ?_⟩
      intro k hkv
      rw [hringL k]
      have hkring : mapLookup ch.ring k = some q.1 := h2 k hkv
      have hkS : k ∉ S := by
        intro hkS
        exact hfreshK k hkS (hringp _ (mem_of_mapLookup_eq_some hkring)).1
      rw [if_neg hkS]
      exact hkring
    · simp at hnew
      subst hnew
      refine ⟨rfl, ?_⟩
      intro k hkv
      have hkv' : k ∈ S := hkv
      rw [hringL k, if_pos hkv']

theorem ringInv_remove {ch : ConsistentHash} {W : String} (hInv : ringInv ch)
    (hreg : (mapLookup ch.workers W).isSome = true) :
    ringInv (RemoveWorker ch W) := by
  obtain ⟨hsort, hknd, hrnd, hwnd, hlive, hringp, hworkq⟩ := hInv
  set S := vnodeHashes W ch.replicas with hS
  obtain ⟨wW, hwW⟩ := Option.isSome_iff_exists.1 hreg
  have hWmem : (W, wW) ∈ ch.workers := mem_of_mapLookup_eq_some hwW
  have hWowns : ∀ k ∈ S, mapLookup ch.ring k = some W := (hworkq _ hWmem).2
  have hrepl : (RemoveWorker ch W).replicas = ch.replicas := rfl
  have hkeys : (RemoveWorker ch W).sortedKeys = S.foldl List.erase ch.sortedKeys := rfl
  have hringE : (RemoveWorker ch W).ring = S.foldl mapDelete ch.ring := rfl
  have hworkE : (RemoveWorker ch W).workers = mapDelete ch.workers W := rfl
  have hkeys' : (RemoveWorker ch W).sortedKeys =
      ch.sortedKeys.filter (fun x => decide (x ∉ S)) := by
    rw [hkeys]
    exact foldl_erase_eq_filter S hknd
  have hmemkeys : ∀ x, x ∈ (RemoveWorker ch W).sortedKeys ↔
      x ∈ ch.sortedKeys ∧ x ∉ S := by
    intro x
    rw [hkeys', List.mem_filter]
    simp
  have hringL : ∀ k, mapLookup (RemoveWorker ch W).ring k =
      if k ∈ S then none else mapLookup ch.ring k := by
    intro k
    rw [hringE]
    exact mapLookup_foldl_delete S ch.ring k
  have hworkL : ∀ x, mapLookup (RemoveWorker ch W).workers x =
      if x = W then none else mapLookup ch.workers x := by
    intro x
    rw [hworkE]
    exact mapLookup_delete ch.workers W x
  refine ⟨?_, ?_, ?_, ?_, ?_, ?_, ?_⟩
  · exact List.Pairwise.sublist (foldl_erase_sublist _ _) hsort
  · exact List.Nodup.sublist (foldl_erase_sublist _ _) hknd
  · rw [hringE]
    exact List.Nodup.sublist (List.Sublist.map _ (foldl_delete_sublist S ch.ring)) hrnd
  · rw [hworkE]
    exact List.Nodup.sublist (List.Sublist.map _ (mapDelete_sublist ch.workers W)) hwnd
  · intro k hkmem
    obtain ⟨hkold, hkS⟩ := (hmemkeys k).1 hkmem
    rw [hringL k, if_neg hkS]
    exact hlive k hkold
  · intro p hp
    rw [hringE] at hp
    obtain ⟨hpold, hpS⟩ := mem_foldl_delete.1 hp
    obtain ⟨h1, h2, h3⟩ := hringp p hpold
    refine ⟨(hmemkeys p.1).2 ⟨h1, hpS⟩, h2, ?_⟩
    have hpW : p.2 ≠ W := by
      intro hc
      rw [hc] at h2
      exact hpS h2
    rw [hworkL p.2, if_neg hpW]
    exact h3
  · intro q hq
    rw [hworkE] at hq
    obtain ⟨hqold, hqW⟩ := mem_mapDelete.1 hq
    obtain ⟨h1, h2⟩ := hworkq q hqold
    refine ⟨h1, ?_⟩
    intro k hkv
    have hkS : k ∉ S := by
      intro hkS
      have := hWowns k hkS
      rw [h2 k hkv] at this
      cases this
      exact hqW rfl
    rw [hringL k, if_neg hkS]
    exact h2 k hkv

/-- Clean construction preserves the invariant throughout. -/
theorem cleanReachable_ringInv {ch : ConsistentHash} (h : CleanReachable ch) :
    ringInv ch := by
  induction h with
  | init replicas =>
    refine ⟨List.sorted_nil, List.nodup_nil, List.nodup_nil, List.nodup_nil,
      ?_, ?_, ?_⟩ <;> intro x hx <;> cases hx
  | add w _ hfreshW hfreshK hndS ih => exact ringInv_add ih hfreshW hfreshK hndS
  | remove workerID _ hreg ih => exact ringInv_remove ih hreg

/-! ### GetWorker characterization -/

theorem GetWorker_eq_ok {ch : ConsistentHash} (taskID : String)
    (hne : ch.ring ≠ []) :
    GetWorker ch taskID =
      .ok (ownerOf ch (selKey ch.sortedKeys (hashFunction taskID))) := by
  rw [GetWorker, if_neg (fun hc => hne (List.length_eq_zero.1 hc))]
  rfl

theorem GetWorker_error_iff (ch : ConsistentHash) (taskID : String) :
    (∃ e, GetWorker ch taskID = .error e) ↔ ch.ring = [] := by
  constructor
  · intro ⟨e, he⟩
    by_contra hne
    rw [GetWorker_eq_ok taskID hne] at he
    cases he
  · intro h
    refine ⟨"no workers available", ?_⟩
    rw [GetWorker, if_pos (by rw [h]; rfl)]

theorem selKey_mem {keys : List Nat} (hash : Nat)
    (hs : keys.Sorted (· ≤ ·)) (hne : keys ≠ []) :
    selKey keys hash ∈ keys := by
  rw [selKey_eq_clockwiseKey hash hs hne]
  exact clockwiseKey_mem hash hne

/-! ### Claim theorems -/

/-- Claim C2 — Lookup determinism: for a fixed ring state (same ring map,
key list and worker registry; the replica count plays no role in lookup)
`GetWorker` returns the same result for the same task ID on every call —
the result is a function of the task ID and the ring state alone. -/
theorem C2_lookup_deterministic (ch₁ ch₂ : ConsistentHash) (taskID : String)
    (hring : ch₁.ring = ch₂.ring) (hkeys : ch₁.sortedKeys = ch₂.sortedKeys)
    (hwork : ch₁.workers = ch₂.workers) :
    GetWorker ch₁ taskID = GetWorker ch₂ taskID := by
  simp only [GetWorker, hring, hkeys, hwork]

theorem C2_lookup_deterministic_witness :
    GetWorker (NewConsistentHash 1) "task-01" =
      GetWorker (NewConsistentHash 2) "task-01" :=
  C2_lookup_deterministic (NewConsistentHash 1) (NewConsistentHash 2)
    "task-01" rfl rfl rfl

/-- Claim C3 — Wrap-around: on a non-empty ring whose every sorted key is
strictly below the task's CRC32 hash, `GetWorker` returns the worker that
owns the virtual node with the smallest hash (the head of the ascending
key list, which is a lower bound of all keys). -/
theorem C3_wrap_around {ch : ConsistentHash} (taskID : String)
    (hringne : ch.ring ≠ []) (hkeysne : ch.sortedKeys ≠ [])
    (hsorted : ch.sortedKeys.Sorted (· ≤ ·))
    (hmax : ∀ k ∈ ch.sortedKeys, k < hashFunction taskID) :
    GetWorker ch taskID = .ok (ownerOf ch (ch.sortedKeys.headD 0)) ∧
    (∀ k ∈ ch.sortedKeys, ch.sortedKeys.headD 0 ≤ k) := by
  have hfil : ch.sortedKeys.filter (fun k => decide (hashFunction taskID ≤ k)) = [] := by
    rw [List.filter_eq_nil_iff]
    intro a ha
    have := hmax a ha
    simp
    omega
  have hck : clockwiseKey ch.sortedKeys (hashFunction taskID) = ch.sortedKeys.headD 0 := by
    rw [clockwiseKey, hfil]
  constructor
  · rw [GetWorker_eq_ok taskID hringne,
        selKey_eq_clockwiseKey (hashFunction taskID) hsorted hkeysne, hck]
  · intro k hk
    exact sorted_headD_le hsorted hk

theorem C3_wrap_around_witness :
    GetWorker (AddWorker (NewConsistentHash 1) ⟨"A", true⟩) "y" =
      .ok (ownerOf (AddWorker (NewConsistentHash 1) ⟨"A", true⟩)
        ((AddWorker (NewConsistentHash 1) ⟨"A", true⟩).sortedKeys.headD 0)) ∧
    (∀ k ∈ (AddWorker (NewConsistentHash 1) ⟨"A", true⟩).sortedKeys,
      (AddWorker (NewConsistentHash 1) ⟨"A", true⟩).sortedKeys.headD 0 ≤ k) :=
  C3_wrap_around "y" (by decide) (by decide) (by decide) (by decide)

/-- Claim C6 — Empty ring: with at least one virtual node per worker
configured, `GetWorker` on the empty ring fails with the no-workers
error, and after a single `AddWorker` every lookup, for every task ID,
succeeds and returns exactly that worker. -/
theorem C6_empty_ring (replicas : Nat) (taskID : String) (w : Worker)
    (hrep : 0 < replicas) :
    GetWorker (NewConsistentHash replicas) taskID = .error "no workers available" ∧
    GetWorker (AddWorker (NewConsistentHash replicas) w) taskID = .ok (some w) := by
  constructor
  · rfl
  · set ch := AddWorker (NewConsistentHash replicas) w with hch
    set S := vnodeHashes w.id replicas with hS
    have hSlen : S.length = replicas := by
      rw [hS, vnodeHashes, List.length_map, List.length_range]
    have hSne : S ≠ [] := by
      intro hc
      rw [hc] at hSlen
      simp at hSlen
      omega
    have hringL : ∀ k, mapLookup ch.ring k =
        if k ∈ S then some w.id else none := by
      intro k
      have : ch.ring = S.foldl (fun r h => mapInsert r h w.id) [] := rfl
      rw [this, mapLookup_foldl_insert]
      rfl
    have hkeysP : List.Perm ch.sortedKeys S := by
      have : ch.sortedKeys = (([] : List Nat) ++ S).insertionSort (· ≤ ·) := rfl
      rw [this]
      exact List.perm_insertionSort _ _
    have hkeysne : ch.sortedKeys ≠ [] := by
      intro hc
      rw [hc] at hkeysP
      exact hSne hkeysP.symm.eq_nil
    have hringne : ch.ring ≠ [] := by
      intro hc
      have h0 : hashFunction (virtualNode w.id 0) ∈ S := by
        rw [hS, vnodeHashes]
        exact List.mem_map.2 ⟨0, List.mem_range.2 hrep, rfl⟩
      have := hringL (hashFunction (virtualNode w.id 0))
      rw [hc, if_pos h0] at this
      cases this
    rw [GetWorker_eq_ok taskID hringne]
    have hselmem : selKey ch.sortedKeys (hashFunction taskID) ∈ ch.sortedKeys :=
      selKey_mem _ (List.sorted_insertionSort _ _) hkeysne
    have hselS : selKey ch.sortedKeys (hashFunction taskID) ∈ S :=
      hkeysP.subset hselmem
    rw [ownerOf, hringL _, if_pos hselS]
    have : ch.workers = [(w.id, w)] := rfl
    rw [this]
    rw [show ((some w.id).getD "") = w.id from rfl]
    rw [mapLookup, if_pos rfl]

theorem C6_empty_ring_witness :
    GetWorker (NewConsistentHash 1) "t1" = .error "no workers available" ∧
    GetWorker (AddWorker (NewConsistentHash 1) ⟨"A", true⟩) "t1" =
      .ok (some ⟨"A", true⟩) :=
  C6_empty_ring 1 "t1" ⟨"A", true⟩ (by decide)

/-- Claim C9 — `GetWorker` returns an error exactly when the hash-to-worker
ring map is empty; with at least one virtual node present the error is
always `nil`, and a stale sorted key left behind by a repeated
`AddWorker` followed by `RemoveWorker` can make it return a `nil` worker
with a `nil` error (witnessed by the concrete state below: add "B"
twice, remove "B", add "A", then look up task "k"). -/
theorem C9_error_iff_empty_and_nil_worker :
    (∀ (ch : ConsistentHash) (taskID : String),
      (∃ e, GetWorker ch taskID = .error e) ↔ ch.ring = []) ∧
    GetWorker
      (AddWorker
        (RemoveWorker
          (AddWorker (AddWorker (NewConsistentHash 1) ⟨"B", true⟩) ⟨"B", true⟩)
          "B")
        ⟨"A", true⟩) "k" = .ok none := by
  constructor
  · exact GetWorker_error_iff
  · rfl

/-- Claim C7 — Backpressure: submitting into a queue already holding
`capacity` tasks returns the queue-full error synchronously and leaves
the state untouched; once one task has been dequeued, the next
submission succeeds and simply appends (the rejection corrupted
nothing). -/
theorem C7_backpressure (wm : WorkerManager) (t t2 : Task)
    (hfull : wm.taskQueue.length = wm.capacity) :
    SubmitTask wm t = (.error "task queue is full", wm) ∧
    (∀ td wm2, dequeueTask wm = some (td, wm2) →
      (SubmitTask wm2 t2).1 = .ok () ∧
      (SubmitTask wm2 t2).2.taskQueue = wm2.taskQueue ++ [t2]) := by
  constructor
  · rw [SubmitTask, if_neg (by omega)]
  · intro td wm2 hdq
    cases hq : wm.taskQueue with
    | nil => simp [dequeueTask, hq] at hdq
    | cons t0 rest =>
      simp only [dequeueTask, hq, Option.some.injEq, Prod.mk.injEq] at hdq
      obtain ⟨h1, h2⟩ := hdq
      subst h2
      have hlen : rest.length + 1 = wm.capacity := by
        rw [hq] at hfull
        simpa using hfull
      constructor
      · rw [SubmitTask, if_pos (by simpa using by omega : rest.length < wm.capacity)]
      · rw [SubmitTask, if_pos (by simpa using by omega : rest.length < wm.capacity)]

theorem C7_backpressure_witness :
    SubmitTask ⟨NewConsistentHash 1, List.replicate 100 ⟨"t", "", 0⟩, 100⟩ ⟨"u", "", 0⟩ =
      (.error "task queue is full", ⟨NewConsistentHash 1, List.replicate 100 ⟨"t", "", 0⟩, 100⟩) ∧
    (∀ td wm2,
      dequeueTask ⟨NewConsistentHash 1, List.replicate 100 ⟨"t", "", 0⟩, 100⟩ = some (td, wm2) →
      (SubmitTask wm2 ⟨"v", "", 0⟩).1 = .ok () ∧
      (SubmitTask wm2 ⟨"v", "", 0⟩).2.taskQueue = wm2.taskQueue ++ [⟨"v", "", 0⟩]) :=
  C7_backpressure ⟨NewConsistentHash 1, List.replicate 100 ⟨"t", "", 0⟩, 100⟩
    ⟨"u", "", 0⟩ ⟨"v", "", 0⟩ (by decide)

/-- Claim C8 — Drop-only on failed routing: whenever the dequeued task's
lookup fails or the routed worker is unhealthy at dispatch time, the
dispatch step performs no `process` action (so `ProcessTask` is never
invoked), does not re-enqueue the task, and leaves the rest of the queue
for the loop to continue with. -/
theorem C8_unhealthy_drop (wm : WorkerManager) (t : Task) (rest : List Task)
    (hq : wm.taskQueue = t :: rest)
    (hbad : (∃ e, GetWorker wm.hash t.ID = .error e) ∨
      (∃ w, GetWorker wm.hash t.ID = .ok (some w) ∧ w.isHealthy = false)) :
    ∃ a wm2, taskProcessorStep wm = some (a, wm2) ∧
      (∀ w, a ≠ DispatchAction.process w) ∧
      wm2.taskQueue = rest ∧ wm2.hash = wm.hash := by
  refine ⟨dispatchDecision wm.hash t, { wm with taskQueue := rest }, ?_, ?_, rfl, rfl⟩
  · simp [taskProcessorStep, hq]
  · intro w
    rcases hbad with ⟨e, he⟩ | ⟨w0, hw0, hhealth⟩
    · simp [dispatchDecision, he]
    · simp [dispatchDecision, hw0, hhealth]

theorem C8_unhealthy_drop_witness :
    ∃ a wm2,
      taskProcessorStep ⟨NewConsistentHash 1, [⟨"t1", "", 0⟩], 100⟩ = some (a, wm2) ∧
      (∀ w, a ≠ DispatchAction.process w) ∧
      wm2.taskQueue = [] ∧ wm2.hash = NewConsistentHash 1 :=
  C8_unhealthy_drop ⟨NewConsistentHash 1, [⟨"t1", "", 0⟩], 100⟩ ⟨"t1", "", 0⟩ []
    rfl (Or.inl ⟨"no workers available", rfl⟩)

theorem submitAll_ok (ts : List Task) : ∀ wm : WorkerManager,
    wm.taskQueue.length + ts.length ≤ wm.capacity →
    submitAll wm ts = some { wm with taskQueue := wm.taskQueue ++ ts } := by
  induction ts with
  | nil => intro wm h; simp [submitAll]
  | cons t ts ih =>
    intro wm h
    rw [submitAll, SubmitTask, if_pos (by simp at h; omega)]
    show submitAll { wm with taskQueue := wm.taskQueue ++ [t] } ts = _
    rw [ih { wm with taskQueue := wm.taskQueue ++ [t] } (by simp at h ⊢; omega)]
    simp

/-- Claim C10 — The queue capacity is exactly 100: starting from a fresh
`WorkerManager` with nothing consuming, any 100 consecutive submissions
all succeed (ending with exactly those tasks queued) and the 101st
submission, whatever the task, is rejected with the queue-full error. -/
theorem C10_queue_capacity (replicas : Nat) (ts : List Task)
    (hlen : ts.length = 100) :
    ∃ wm2, submitAll (NewWorkerManager replicas) ts = some wm2 ∧
      wm2.taskQueue = ts ∧
      ∀ t2, SubmitTask wm2 t2 = (.error "task queue is full", wm2) := by
  have h := submitAll_ok ts (NewWorkerManager replicas)
    (by simp [NewWorkerManager, hlen])
  refine ⟨_, h, by simp [NewWorkerManager], ?_⟩
  intro t2
  rw [SubmitTask, if_neg (by simp [NewWorkerManager, hlen])]

theorem C10_queue_capacity_witness :
    ∃ wm2, submitAll (NewWorkerManager 3) (List.replicate 100 ⟨"t", "", 0⟩) = some wm2 ∧
      wm2.taskQueue = List.replicate 100 ⟨"t", "", 0⟩ ∧
      ∀ t2, SubmitTask wm2 t2 = (.error "task queue is full", wm2) :=
  C10_queue_capacity 3 (List.replicate 100 ⟨"t", "", 0⟩) (by decide)

/-- Claim C4, counterexample — re-adding the same worker does *not* replace
its virtual nodes: after adding worker "A" twice to a fresh one-replica
ring, the hash of virtual node "A#0" occurs twice in the sorted key
list, and the state differs from the single-add state. -/
theorem C4_counterexample :
    (AddWorker (AddWorker (NewConsistentHash 1) ⟨"A", true⟩) ⟨"A", true⟩).sortedKeys.count
        (hashFunction (virtualNode "A" 0)) = 2 ∧
    AddWorker (AddWorker (NewConsistentHash 1) ⟨"A", true⟩) ⟨"A", true⟩ ≠
      AddWorker (NewConsistentHash 1) ⟨"A", true⟩ := by
  constructor
  · rfl
  · decide

/-- Claim C4, amended — re-adding a registered worker overwrites its entry
in the workers map and its virtual-node entries in the ring map (both
maps equal the single-add state extensionally), but it does *not*
replace the sorted keys: each virtual-node hash is appended once more,
so its multiplicity grows by one per re-add and the ring state does not
equal the single-add state. -/
theorem C4_amended (ch : ConsistentHash) (w : Worker) :
    (∀ k, mapLookup (AddWorker (AddWorker ch w) w).ring k =
      mapLookup (AddWorker ch w).ring k) ∧
    (∀ x, mapLookup (AddWorker (AddWorker ch w) w).workers x =
      mapLookup (AddWorker ch w).workers x) ∧
    (∀ k, (AddWorker (AddWorker ch w) w).sortedKeys.count k =
      (AddWorker ch w).sortedKeys.count k +
        (vnodeHashes w.id ch.replicas).count k) := by
  have hrepl : (AddWorker ch w).replicas = ch.replicas := rfl
  refine ⟨?_, ?_, ?_⟩
  · intro k
    have h2 : mapLookup (AddWorker (AddWorker ch w) w).ring k =
        if k ∈ vnodeHashes w.id ch.replicas then some w.id
        else mapLookup (AddWorker ch w).ring k := by
      have : (AddWorker (AddWorker ch w) w).ring =
          (vnodeHashes w.id ch.replicas).foldl
            (fun r h => mapInsert r h w.id) (AddWorker ch w).ring := rfl
      rw [this, mapLookup_foldl_insert]
    have h1 : mapLookup (AddWorker ch w).ring k =
        if k ∈ vnodeHashes w.id ch.replicas then some w.id
        else mapLookup ch.ring k := by
      have : (AddWorker ch w).ring =
          (vnodeHashes w.id ch.replicas).foldl
            (fun r h => mapInsert r h w.id) ch.ring := rfl
      rw [this, mapLookup_foldl_insert]
    rw [h2, h1]
    by_cases hk : k ∈ vnodeHashes w.id ch.replicas
    · rw [if_pos hk, if_pos hk]
    · rw [if_neg hk, if_neg hk]
  · intro x
    have h2 : mapLookup (AddWorker (AddWorker ch w) w).workers x =
        if x = w.id then some w else mapLookup (AddWorker ch w).workers x := by
      have : (AddWorker (AddWorker ch w) w).workers =
          mapInsert (AddWorker ch w).workers w.id w := rfl
      rw [this, mapLookup_insert]
    have h1 : mapLookup (AddWorker ch w).workers x =
        if x = w.id then some w else mapLookup ch.workers x := by
      have : (AddWorker ch w).workers = mapInsert ch.workers w.id w := rfl
      rw [this, mapLookup_insert]
    rw [h2, h1]
    by_cases hx : x = w.id
    · rw [if_pos hx, if_pos hx]
    · rw [if_neg hx, if_neg hx]
  · intro k
    have h2 : (AddWorker (AddWorker ch w) w).sortedKeys =
        ((AddWorker ch w).sortedKeys ++
          vnodeHashes w.id ch.replicas).insertionSort (· ≤ ·) := rfl
    rw [h2, (List.perm_insertionSort _ _).count_eq, List.count_append]

/-- Claim C5, counterexample — the liveness half of the invariant fails for
the sequence add "A", add "A", remove "A": a stale copy of the hash of
"A#0" remains in the sorted key list while its ring-map entry (and the
worker) are gone. -/
theorem C5_counterexample :
    hashFunction (virtualNode "A" 0) ∈
      (RemoveWorker
        (AddWorker (AddWorker (NewConsistentHash 1) ⟨"A", true⟩) ⟨"A", true⟩)
        "A").sortedKeys ∧
    mapLookup
      (RemoveWorker
        (AddWorker (AddWorker (NewConsistentHash 1) ⟨"A", true⟩) ⟨"A", true⟩)
        "A").ring (hashFunction (virtualNode "A" 0)) = none := by
  constructor
  · decide
  · rfl

/-- Claim C5, amended — after every sequence of `AddWorker`/`RemoveWorker`
operations the sorted key list is ascending; the liveness half — every
listed hash has a ring entry naming a registered worker — holds provided
no `AddWorker` call re-adds a currently registered worker (its ID absent,
its virtual-node hashes fresh and pairwise distinct) and every
`RemoveWorker` call removes a registered worker. A re-add followed by a
removal violates it (see the counterexample). -/
theorem C5_amended :
    (∀ ch, Reachable ch → ch.sortedKeys.Sorted (· ≤ ·)) ∧
    (∀ ch, CleanReachable ch → ∀ k ∈ ch.sortedKeys,
      ∃ wid w, mapLookup ch.ring k = some wid ∧
        mapLookup ch.workers wid = some w) := by
  constructor
  · exact fun ch h => reachable_sorted h
  · intro ch h k hk
    obtain ⟨_, _, _, _, hlive, hringp, _⟩ := cleanReachable_ringInv h
    obtain ⟨wid, hwid⟩ := Option.isSome_iff_exists.1 (hlive k hk)
    have hmem := mem_of_mapLookup_eq_some hwid
    obtain ⟨w, hw⟩ := Option.isSome_iff_exists.1 (hringp _ hmem).2.2
    exact ⟨wid, w, hwid, hw⟩

theorem C5_amended_witness :
    (AddWorker (AddWorker (NewConsistentHash 1) ⟨"A", true⟩) ⟨"B", true⟩).sortedKeys.Sorted
      (· ≤ ·) ∧
    (∃ wid w,
      mapLookup
        (AddWorker (AddWorker (NewConsistentHash 1) ⟨"A", true⟩) ⟨"B", true⟩).ring
        (hashFunction (virtualNode "A" 0)) = some wid ∧
      mapLookup
        (AddWorker (AddWorker (NewConsistentHash 1) ⟨"A", true⟩) ⟨"B", true⟩).workers
        wid = some w) :=
  ⟨C5_amended.1 _
      (Reachable.add _ (Reachable.add _ (Reachable.init 1))),
   C5_amended.2 _
      (CleanReachable.add _
        (CleanReachable.add _ (CleanReachable.init 1) (by decide) (by decide)
          (by decide))
        (by decide) (by decide) (by decide))
      (hashFunction (virtualNode "A" 0)) (by decide)⟩

/-- Claim C1 — Minimal disruption: on any ring built by adding each worker
once with collision-free virtual-node hashes (and any clean removals),
removing a registered worker `W` leaves the routing of every task that
`GetWorker` previously sent to a worker other than `W` unchanged; and
every task on the post-removal ring — in particular every task that was
previously routed to `W` — is routed to the owner of the clockwise
successor (first surviving key `≥` its hash, wrapping to the smallest)
among the surviving virtual nodes. -/
theorem C1_minimal_disruption {ch : ConsistentHash} (hclean : CleanReachable ch)
    (W : String) (taskID : String)
    (hreg : (mapLookup ch.workers W).isSome = true) :
    (∀ w2, GetWorker ch taskID = .ok (some w2) → w2.id ≠ W →
      GetWorker (RemoveWorker ch W) taskID = .ok (some w2)) ∧
    ((RemoveWorker ch W).ring ≠ [] →
      GetWorker (RemoveWorker ch W) taskID =
        .ok (ownerOf (RemoveWorker ch W)
          (clockwiseKey (RemoveWorker ch W).sortedKeys (hashFunction taskID)))) := by
  obtain ⟨hsort, hknd, hrnd, hwnd, hlive, hringp, hworkq⟩ :=
    cleanReachable_ringInv hclean
  obtain ⟨hsort2, hknd2, hrnd2, hwnd2, hlive2, hringp2, hworkq2⟩ :=
    ringInv_remove (cleanReachable_ringInv hclean) hreg
  have hsecond : (RemoveWorker ch W).ring ≠ [] →
      GetWorker (RemoveWorker ch W) taskID =
        .ok (ownerOf (RemoveWorker ch W)
          (clockwiseKey (RemoveWorker ch W).sortedKeys (hashFunction taskID))) := by
    intro hne2
    have hkeysne2 : (RemoveWorker ch W).sortedKeys ≠ [] := by
      cases hr2 : (RemoveWorker ch W).ring with
      | nil => exact absurd hr2 hne2
      | cons p rest =>
        have hp : p ∈ (RemoveWorker ch W).ring := by
          rw [hr2]; exact List.mem_cons_self p rest
        intro hc
        have := (hringp2 p hp).1
        rw [hc] at this
        cases this
    rw [GetWorker_eq_ok taskID hne2,
        selKey_eq_clockwiseKey (hashFunction taskID) hsort2 hkeysne2]
  refine ⟨?_, hsecond⟩
  intro w2 hget hneW
  have hringne : ch.ring ≠ [] := by
    intro hc
    rw [GetWorker, if_pos (by rw [hc]; rfl)] at hget
    cases hget
  have hkeysne : ch.sortedKeys ≠ [] := by
    cases hr : ch.ring with
    | nil => exact absurd hr hringne
    | cons p rest =>
      have hp : p ∈ ch.ring := by rw [hr]; exact List.mem_cons_self p rest
      intro hc
      have := (hringp p hp).1
      rw [hc] at this
      cases this
  rw [GetWorker_eq_ok taskID hringne] at hget
  have hown : ownerOf ch (selKey ch.sortedKeys (hashFunction taskID)) = some w2 :=
    Except.ok.inj hget
  set k := selKey ch.sortedKeys (hashFunction taskID) with hkdef
  have hkck : k = clockwiseKey ch.sortedKeys (hashFunction taskID) :=
    selKey_eq_clockwiseKey (hashFunction taskID) hsort hkeysne
  have hkmem : k ∈ ch.sortedKeys := by
    rw [hkck]
    exact clockwiseKey_mem (hashFunction taskID) hkeysne
  obtain ⟨wid, hwid⟩ := Option.isSome_iff_exists.1 (hlive k hkmem)
  have hown2 : mapLookup ch.workers wid = some w2 := by
    rw [ownerOf, hwid] at hown
    simpa using hown
  have hid : w2.id = wid := (hworkq _ (mem_of_mapLookup_eq_some hown2)).1
  have hwidW : wid ≠ W := fun hc => hneW (hid.trans hc)
  obtain ⟨wW, hwW⟩ := Option.isSome_iff_exists.1 hreg
  have hkS : k ∉ vnodeHashes W ch.replicas := by
    intro hkS
    have hWk := (hworkq _ (mem_of_mapLookup_eq_some hwW)).2 k hkS
    rw [hwid] at hWk
    cases hWk
    exact hwidW rfl
  have hkeysE : (RemoveWorker ch W).sortedKeys =
      ch.sortedKeys.filter (fun x => decide (x ∉ vnodeHashes W ch.replicas)) := by
    rw [show (RemoveWorker ch W).sortedKeys =
        (vnodeHashes W ch.replicas).foldl List.erase ch.sortedKeys from rfl]
    exact foldl_erase_eq_filter _ hknd
  have hkmem2 : k ∈ (RemoveWorker ch W).sortedKeys := by
    rw [hkeysE, List.mem_filter]
    exact ⟨hkmem, by simpa using hkS⟩
  have hringL2 : mapLookup (RemoveWorker ch W).ring k = some wid := by
    rw [show (RemoveWorker ch W).ring =
        (vnodeHashes W ch.replicas).foldl mapDelete ch.ring from rfl,
        mapLookup_foldl_delete, if_neg hkS]
    exact hwid
  have hringne2 : (RemoveWorker ch W).ring ≠ [] := by
    intro hc
    rw [hc] at hringL2
    cases hringL2
  have hkeysne2 : (RemoveWorker ch W).sortedKeys ≠ [] := by
    intro hc
    rw [hc] at hkmem2
    cases hkmem2
  have hksel2 : selKey (RemoveWorker ch W).sortedKeys (hashFunction taskID) = k := by
    rw [selKey_eq_clockwiseKey (hashFunction taskID) hsort2 hkeysne2, hkck]
    apply clockwiseKey_stable hsort
    · rw [hkeysE]
      exact List.filter_sublist _
    · rw [← hkck]
      exact hkmem2
  have hworkL2 : mapLookup (RemoveWorker ch W).workers wid = some w2 := by
    rw [show (RemoveWorker ch W).workers = mapDelete ch.workers W from rfl,
        mapLookup_delete, if_neg hwidW]
    exact hown2
  rw [GetWorker_eq_ok taskID hringne2, hksel2, ownerOf, hringL2]
  rw [show ((some wid).getD "") = wid from rfl, hworkL2]

theorem C1_minimal_disruption_witness :
    GetWorker
      (RemoveWorker
        (AddWorker (AddWorker (NewConsistentHash 1) ⟨"A", true⟩) ⟨"B", true⟩)
        "A") "k" = .ok (some ⟨"B", true⟩) :=
  (C1_minimal_disruption
      (CleanReachable.add _
        (CleanReachable.add _ (CleanReachable.init 1) (by decide) (by decide)
          (by decide))
        (by decide) (by decide) (by decide))
      "A" "k" (by decide)).1
    ⟨"B", true⟩ rfl (by decide)

end DistWorker
